import Mathlib

/-!
Shallow embedding of `core/sr-primitives/src/generic/digest.rs`: the digest
item codec (tag table, owned `DigestItem`, borrowing `DigestItemRef`,
encode/decode), the `Digest` container, and the textual hex serialization.

Bytes are modelled as `Nat` (values below 256 where produced by an encoder).
A decoder is a function `List Nat → Option (α × List Nat)` returning the
decoded value and the unconsumed remainder of the input, mirroring the
byte-cursor `Input` abstraction of the codec crate. The generic parameters
`Hash`, `AuthorityId`, `SealSignature` are abstract codec-compatible types;
their field codecs are passed explicitly, with the standard codec laws
(`RoundLaw`, `TruncLaw`) as hypotheses where a theorem needs them.
-/

/-- Split off the first `n` bytes of the input, failing when fewer remain. -/
def takeN (n : Nat) (l : List Nat) : Option (List Nat × List Nat) :=
  if n ≤ l.length then some (l.take n, l.drop n) else none

/-- Minimal little-endian base-256 digits of a natural number (empty for 0). -/
def natLEBytes : Nat → List Nat
  | 0 => []
  | n + 1 => ((n + 1) % 256) :: natLEBytes ((n + 1) / 256)
decreasing_by exact Nat.div_lt_self (Nat.succ_pos n) (by norm_num)

/-- Value of a little-endian base-256 digit list. -/
def leValue : List Nat → Nat
  | [] => 0
  | b :: rest => b + 256 * leValue rest

/-- SCALE compact length encoding, as used by the codec crate for
sequence length prefixes. -/
def encodeCompact (n : Nat) : List Nat :=
  if n < 64 then [n * 4]
  else if n < 16384 then [(n * 4 + 1) % 256, (n * 4 + 1) / 256]
  else if n < 1073741824 then
    [(n * 4 + 2) % 256, (n * 4 + 2) / 256 % 256,
     (n * 4 + 2) / 65536 % 256, (n * 4 + 2) / 16777216]
  else
    (((natLEBytes n).length - 4) * 4 + 3) :: natLEBytes n

/-- SCALE compact length decoding. -/
def decodeCompact : List Nat → Option (Nat × List Nat)
  | [] => none
  | b :: rest =>
    if b % 4 = 0 then some (b / 4, rest)
    else if b % 4 = 1 then
      match rest with
      | [] => none
      | b1 :: r => some ((b + 256 * b1) / 4, r)
    else if b % 4 = 2 then
      match rest with
      | b1 :: b2 :: b3 :: r =>
          some ((b + 256 * b1 + 65536 * b2 + 16777216 * b3) / 4, r)
      | _ => none
    else
      match takeN (b / 4 + 4) rest with
      | none => none
      | some (bs, r) => some (leValue bs, r)

theorem takeN_append (bs rest : List Nat) :
    takeN bs.length (bs ++ rest) = some (bs, rest) := by
  unfold takeN
  rw [if_pos (by simp)]
  rw [List.take_left, List.drop_left]

theorem takeN_short (n : Nat) (l : List Nat) (h : l.length < n) :
    takeN n l = none := by
  unfold takeN
  rw [if_neg (by omega)]

theorem leValue_natLEBytes (n : Nat) : leValue (natLEBytes n) = n := by
  induction n using Nat.strong_induction_on with
  | _ n ih =>
    match n with
    | 0 => simp [natLEBytes, leValue]
    | m + 1 =>
      rw [natLEBytes, leValue, ih ((m + 1) / 256)
        (Nat.div_lt_self (Nat.succ_pos m) (by norm_num))]
      omega

theorem lt_pow_natLEBytes (m : Nat) : m < 256 ^ (natLEBytes m).length := by
  induction m using Nat.strong_induction_on with
  | _ m ih =>
    match m with
    | 0 => simp [natLEBytes]
    | k + 1 =>
      rw [natLEBytes]
      have ihd := ih ((k + 1) / 256)
        (Nat.div_lt_self (Nat.succ_pos k) (by norm_num))
      simp only [List.length_cons, pow_succ]
      have hsplit : (k + 1) % 256 + 256 * ((k + 1) / 256) = k + 1 := by omega
      have : k + 1 < 256 * (1 + (k + 1) / 256) := by omega
      have h2 : 256 * (1 + (k + 1) / 256) ≤
          256 * 256 ^ (natLEBytes ((k + 1) / 256)).length :=
        Nat.mul_le_mul_left 256 (by omega)
      calc k + 1 < 256 * (1 + (k + 1) / 256) := this
        _ ≤ 256 * 256 ^ (natLEBytes ((k + 1) / 256)).length := h2
        _ = 256 ^ (natLEBytes ((k + 1) / 256)).length * 256 := by ring

theorem natLEBytes_big (n : Nat) (h : 16777216 ≤ n) :
    4 ≤ (natLEBytes n).length := by
  have hb := lt_pow_natLEBytes n
  by_contra hc
  push_neg at hc
  have : 256 ^ (natLEBytes n).length ≤ 256 ^ 3 :=
    Nat.pow_le_pow_right (by norm_num) (by omega)
  norm_num at this
  omega

theorem decodeCompact_cons (b : Nat) (rest : List Nat) :
    decodeCompact (b :: rest) =
      if b % 4 = 0 then some (b / 4, rest)
      else if b % 4 = 1 then
        match rest with
        | [] => none
        | b1 :: r => some ((b + 256 * b1) / 4, r)
      else if b % 4 = 2 then
        match rest with
        | b1 :: b2 :: b3 :: r =>
            some ((b + 256 * b1 + 65536 * b2 + 16777216 * b3) / 4, r)
        | _ => none
      else
        match takeN (b / 4 + 4) rest with
        | none => none
        | some (bs, r) => some (leValue bs, r) := rfl

theorem decodeCompact_round (n : Nat) (rest : List Nat) :
    decodeCompact (encodeCompact n ++ rest) = some (n, rest) := by
  unfold encodeCompact
  by_cases h1 : n < 64
  · rw [if_pos h1]
    simp only [List.cons_append, List.nil_append]
    rw [decodeCompact_cons, if_pos (by omega)]
    simp only [Option.some.injEq, Prod.mk.injEq]
    exact ⟨by omega, trivial⟩
  · rw [if_neg h1]
    by_cases h2 : n < 16384
    · rw [if_pos h2]
      simp only [List.cons_append, List.nil_append]
      rw [decodeCompact_cons, if_neg (by omega), if_pos (by omega)]
      simp only [Option.some.injEq, Prod.mk.injEq]
      exact ⟨by omega, trivial⟩
    · rw [if_neg h2]
      by_cases h3 : n < 1073741824
      · rw [if_pos h3]
        simp only [List.cons_append, List.nil_append]
        rw [decodeCompact_cons, if_neg (by omega), if_neg (by omega), if_pos (by omega)]
        simp only [Option.some.injEq, Prod.mk.injEq]
        exact ⟨by omega, trivial⟩
      · rw [if_neg h3]
        have hlen : 4 ≤ (natLEBytes n).length := natLEBytes_big n (by omega)
        simp only [List.cons_append]
        rw [decodeCompact_cons, if_neg (by omega), if_neg (by omega), if_neg (by omega)]
        have hd : (((natLEBytes n).length - 4) * 4 + 3) / 4 + 4 = (natLEBytes n).length := by
          omega
        rw [hd, takeN_append]
        simp [leValue_natLEBytes]

theorem dropLast_append_ne {α : Type} (l1 l2 : List α) (h : l2 ≠ []) :
    (l1 ++ l2).dropLast = l1 ++ l2.dropLast := by
  induction l1 with
  | nil => rfl
  | cons a l ih =>
    have hne : l ++ l2 ≠ [] := by
      intro hc
      exact h (List.append_eq_nil.mp hc).2
    cases hx : l ++ l2 with
    | nil => exact absurd hx hne
    | cons b t =>
      rw [List.cons_append, hx, List.dropLast_cons₂, ← hx, ih]
      rfl

theorem encodeCompact_ne_nil (n : Nat) : encodeCompact n ≠ [] := by
  unfold encodeCompact
  split
  · simp
  · split
    · simp
    · split
      · simp
      · simp

theorem decodeCompact_trunc (n : Nat) (l l2 : List Nat)
    (he : encodeCompact n = l ++ l2) (hne : l2 ≠ []) :
    decodeCompact l = none := by
  cases l with
  | nil => rfl
  | cons a l' =>
    unfold encodeCompact at he
    by_cases h1 : n < 64
    · rw [if_pos h1] at he
      simp only [List.cons_append, List.cons.injEq] at he
      exact absurd (List.append_eq_nil.mp he.2.symm).2 hne
    · rw [if_neg h1] at he
      by_cases h2 : n < 16384
      · rw [if_pos h2] at he
        simp only [List.cons_append, List.cons.injEq] at he
        obtain ⟨ha, htail⟩ := he
        cases l' with
        | nil =>
          rw [decodeCompact_cons, if_neg (by omega), if_pos (by omega)]
        | cons b l'' =>
          simp only [List.cons_append, List.cons.injEq] at htail
          exact absurd (List.append_eq_nil.mp htail.2.symm).2 hne
      · rw [if_neg h2] at he
        by_cases h3 : n < 1073741824
        · rw [if_pos h3] at he
          simp only [List.cons_append, List.cons.injEq] at he
          obtain ⟨ha, htail⟩ := he
          cases l' with
          | nil =>
            rw [decodeCompact_cons, if_neg (by omega), if_neg (by omega),
              if_pos (by omega)]
          | cons b l'' =>
            simp only [List.cons_append, List.cons.injEq] at htail
            obtain ⟨hb, htail2⟩ := htail
            cases l'' with
            | nil =>
              rw [decodeCompact_cons, if_neg (by omega), if_neg (by omega),
                if_pos (by omega)]
            | cons c l''' =>
              simp only [List.cons_append, List.cons.injEq] at htail2
              obtain ⟨hc, htail3⟩ := htail2
              cases l''' with
              | nil =>
                rw [decodeCompact_cons, if_neg (by omega), if_neg (by omega),
                  if_pos (by omega)]
              | cons d l'''' =>
                simp only [List.cons_append, List.cons.injEq] at htail3
                exact absurd (List.append_eq_nil.mp htail3.2.symm).2 hne
        · rw [if_neg h3] at he
          have hlen : 4 ≤ (natLEBytes n).length := natLEBytes_big n (by omega)
          simp only [List.cons_append, List.cons.injEq] at he
          obtain ⟨ha, htail⟩ := he
          rw [decodeCompact_cons, if_neg (by omega), if_neg (by omega),
            if_neg (by omega)]
          have hlt : l'.length < a / 4 + 4 := by
            have : (natLEBytes n).length = l'.length + l2.length := by
              rw [htail, List.length_append]
            have h2len : 1 ≤ l2.length := by
              cases l2 with
              | nil => exact absurd rfl hne
              | cons x xs => simp
            omega
          rw [takeN_short _ _ hlt]

/-- Length-prefixed byte sequence encoding (`Vec<u8>` in the codec crate). -/
def encodeBytes (bs : List Nat) : List Nat := encodeCompact bs.length ++ bs

/-- Length-prefixed byte sequence decoding. -/
def decodeBytes (l : List Nat) : Option (List Nat × List Nat) :=
  match decodeCompact l with
  | none => none
  | some (n, r) => takeN n r

theorem decodeBytes_round (bs rest : List Nat) :
    decodeBytes (encodeBytes bs ++ rest) = some (bs, rest) := by
  unfold encodeBytes decodeBytes
  rw [List.append_assoc, decodeCompact_round]
  exact takeN_append bs rest

theorem encodeBytes_ne_nil (bs : List Nat) : encodeBytes bs ≠ [] := by
  unfold encodeBytes
  intro h
  exact encodeCompact_ne_nil bs.length (List.append_eq_nil.mp h).1

theorem decodeBytes_dropLast (bs : List Nat) :
    decodeBytes (encodeBytes bs).dropLast = none := by
  unfold encodeBytes
  cases bs with
  | nil =>
    have h0 : encodeCompact (List.length ([] : List Nat)) = [0] := rfl
    rw [h0]
    rfl
  | cons x xs =>
    rw [dropLast_append_ne _ _ (by simp)]
    unfold decodeBytes
    rw [decodeCompact_round]
    have : (x :: xs).dropLast.length < (x :: xs).length := by
      rw [List.length_dropLast]
      simp
    exact takeN_short _ _ this

/-- Standard codec law: decoding the encoding of `a` followed by any
remainder succeeds, yields `a`, and consumes exactly the encoding. -/
def RoundLaw {α : Type} (enc : α → List Nat)
    (dec : List Nat → Option (α × List Nat)) : Prop :=
  ∀ a rest, dec (enc a ++ rest) = some (a, rest)

/-- Standard codec law: decoding any proper leading part of an encoding
fails (the cursor runs out of bytes). -/
def TruncLaw {α : Type} (enc : α → List Nat)
    (dec : List Nat → Option (α × List Nat)) : Prop :=
  ∀ a l l2, enc a = l ++ l2 → l2 ≠ [] → dec l = none

/-- `ConsensusEngineId` is a 4-byte identifier (`[u8; 4]`). -/
abbrev ConsensusEngineId := Nat × Nat × Nat × Nat

/-- Fixed-array encoding of an engine id: its four raw bytes. -/
def encodeEngineId (e : ConsensusEngineId) : List Nat :=
  [e.1, e.2.1, e.2.2.1, e.2.2.2]

/-- Fixed-array decoding of an engine id. -/
def decodeEngineId : List Nat → Option (ConsensusEngineId × List Nat)
  | a :: b :: c :: d :: rest => some ((a, b, c, d), rest)
  | _ => none

theorem decodeEngineId_round : RoundLaw encodeEngineId decodeEngineId := by
  intro a rest
  rfl

theorem decodeEngineId_trunc : TruncLaw encodeEngineId decodeEngineId := by
  intro a l l2 he hne
  match l, he with
  | [], _ => rfl
  | [x], _ => rfl
  | [x, y], _ => rfl
  | [x, y, z], _ => rfl
  | x :: y :: z :: w :: l', hh =>
    simp only [encodeEngineId, List.cons_append, List.cons.injEq] at hh
    exact absurd (List.append_eq_nil.mp hh.2.2.2.2.symm).2 hne

/-- Sequence encoding: compact length prefix, then each element's encoding
in order (`Vec<T>` in the codec crate). -/
def encodeVec {α : Type} (enc : α → List Nat) (xs : List α) : List Nat :=
  encodeCompact xs.length ++ (xs.map enc).flatten

/-- Decode exactly `n` consecutive elements from the cursor. -/
def decodeN {α : Type} (dec : List Nat → Option (α × List Nat)) :
    Nat → List Nat → Option (List α × List Nat)
  | 0, l => some ([], l)
  | n + 1, l =>
    match dec l with
    | none => none
    | some (x, r) =>
      match decodeN dec n r with
      | none => none
      | some (xs, r2) => some (x :: xs, r2)

/-- Sequence decoding: compact length prefix, then that many elements. -/
def decodeVec {α : Type} (dec : List Nat → Option (α × List Nat))
    (l : List Nat) : Option (List α × List Nat) :=
  match decodeCompact l with
  | none => none
  | some (n, r) => decodeN dec n r

theorem decodeN_round {α : Type} {enc : α → List Nat}
    {dec : List Nat → Option (α × List Nat)} (hround : RoundLaw enc dec)
    (xs : List α) (rest : List Nat) :
    decodeN dec xs.length ((xs.map enc).flatten ++ rest) = some (xs, rest) := by
  have hr : ∀ a r, dec (enc a ++ r) = some (a, r) := hround
  induction xs with
  | nil => rfl
  | cons x xs ih =>
    simp only [List.map_cons, List.flatten_cons, List.length_cons,
      List.append_assoc, decodeN, hr, ih]

theorem decodeVec_round {α : Type} {enc : α → List Nat}
    {dec : List Nat → Option (α × List Nat)} (hround : RoundLaw enc dec) :
    RoundLaw (encodeVec enc) (decodeVec dec) := by
  intro xs rest
  unfold encodeVec decodeVec
  rw [List.append_assoc, decodeCompact_round]
  exact decodeN_round hround xs rest

theorem decodeN_dropLast_flatten {α : Type} {enc : α → List Nat}
    {dec : List Nat → Option (α × List Nat)} (hround : RoundLaw enc dec)
    (htrunc : TruncLaw enc dec) (xs : List α)
    (hne : (xs.map enc).flatten ≠ []) :
    decodeN dec xs.length ((xs.map enc).flatten).dropLast = none := by
  induction xs with
  | nil => exact absurd rfl hne
  | cons x xs ih =>
    simp only [List.map_cons, List.flatten_cons] at hne ⊢
    by_cases hj : (xs.map enc).flatten = []
    · rw [hj, List.append_nil] at hne ⊢
      have hx : enc x ≠ [] := hne
      have hsplit : enc x = (enc x).dropLast ++ [(enc x).getLast hx] :=
        (List.dropLast_append_getLast hx).symm
      simp only [List.length_cons, decodeN,
        htrunc x (enc x).dropLast [(enc x).getLast hx] hsplit (by simp)]
    · rw [dropLast_append_ne _ _ hj]
      have hr : ∀ a r, dec (enc a ++ r) = some (a, r) := hround
      simp only [List.length_cons, decodeN, hr, ih hj]

theorem decodeVec_dropLast {α : Type} {enc : α → List Nat}
    {dec : List Nat → Option (α × List Nat)} (hround : RoundLaw enc dec)
    (htrunc : TruncLaw enc dec) (xs : List α) :
    decodeVec dec (encodeVec enc xs).dropLast = none := by
  unfold encodeVec decodeVec
  by_cases hj : (xs.map enc).flatten = []
  · rw [hj, List.append_nil]
    have hc : encodeCompact xs.length =
        (encodeCompact xs.length).dropLast ++
          [(encodeCompact xs.length).getLast (encodeCompact_ne_nil _)] :=
      (List.dropLast_append_getLast (encodeCompact_ne_nil _)).symm
    rw [decodeCompact_trunc xs.length _ _ hc (by simp)]
  · rw [dropLast_append_ne _ _ hj, decodeCompact_round]
    exact decodeN_dropLast_flatten hround htrunc xs hj

/-- Wire-format tag table (`DigestItemType` in the source). The numeric
discriminants are explicit; the value 3 is reserved and maps to no variant. -/
inductive DigestItemType
  | Other
  | AuthoritiesChange
  | ChangesTrieRoot
  | Consensus
  | Seal
  | PreRuntime
deriving DecidableEq

/-- Explicit numeric discriminant of each tag. -/
def DigestItemType.toByte : DigestItemType → Nat
  | .Other => 0
  | .AuthoritiesChange => 1
  | .ChangesTrieRoot => 2
  | .Consensus => 4
  | .Seal => 5
  | .PreRuntime => 6

/-- Derived enum encoding: the discriminant written as a single byte. -/
def DigestItemType.encode (t : DigestItemType) : List Nat := [t.toByte]

/-- Derived enum decoding: read one byte and match it against the known
discriminants; any other value (including the reserved 3) fails. -/
def DigestItemType.decode : List Nat → Option (DigestItemType × List Nat)
  | [] => none
  | b :: rest =>
    if b = 0 then some (.Other, rest)
    else if b = 1 then some (.AuthoritiesChange, rest)
    else if b = 2 then some (.ChangesTrieRoot, rest)
    else if b = 4 then some (.Consensus, rest)
    else if b = 5 then some (.Seal, rest)
    else if b = 6 then some (.PreRuntime, rest)
    else none

/-- Owned digest item (`DigestItem` in the source): a tagged union of six
payload kinds, generic over the opaque `Hash`, `AuthorityId` and
`SealSignature` types. -/
inductive DigestItem (Hash AuthorityId SealSignature : Type) where
  | AuthoritiesChange : List AuthorityId → DigestItem Hash AuthorityId SealSignature
  | ChangesTrieRoot : Hash → DigestItem Hash AuthorityId SealSignature
  | Consensus : ConsensusEngineId → List Nat → DigestItem Hash AuthorityId SealSignature
  | Seal : ConsensusEngineId → SealSignature → DigestItem Hash AuthorityId SealSignature
  | PreRuntime : ConsensusEngineId → List Nat → DigestItem Hash AuthorityId SealSignature
  | Other : List Nat → DigestItem Hash AuthorityId SealSignature
deriving DecidableEq

/-- Borrowing projection (`DigestItemRef` in the source): the same six
variants over borrowed payloads. In the shallow embedding a borrowed field
is the field's value. -/
inductive DigestItemRef (Hash AuthorityId SealSignature : Type) where
  | AuthoritiesChange : List AuthorityId → DigestItemRef Hash AuthorityId SealSignature
  | ChangesTrieRoot : Hash → DigestItemRef Hash AuthorityId SealSignature
  | Consensus : ConsensusEngineId → List Nat → DigestItemRef Hash AuthorityId SealSignature
  | Seal : ConsensusEngineId → SealSignature → DigestItemRef Hash AuthorityId SealSignature
  | PreRuntime : ConsensusEngineId → List Nat → DigestItemRef Hash AuthorityId SealSignature
  | Other : List Nat → DigestItemRef Hash AuthorityId SealSignature
deriving DecidableEq

/-- `DigestItem::as_other`: present only for the `Other` variant. -/
def DigestItem.as_other {H A S : Type} : DigestItem H A S → Option (List Nat)
  | .Other v => some v
  | _ => none

/-- `DigestItem::dref`: the borrowing projection of an owned item. -/
def DigestItem.dref {H A S : Type} : DigestItem H A S → DigestItemRef H A S
  | .AuthoritiesChange v => .AuthoritiesChange v
  | .ChangesTrieRoot v => .ChangesTrieRoot v
  | .Consensus v s => .Consensus v s
  | .Seal v s => .Seal v s
  | .PreRuntime v s => .PreRuntime v s
  | .Other v => .Other v

/-- `DigestItemRef::as_authorities_change`. -/
def DigestItemRef.as_authorities_change {H A S : Type} :
    DigestItemRef H A S → Option (List A)
  | .AuthoritiesChange authorities => some authorities
  | _ => none

/-- `DigestItemRef::as_changes_trie_root`. -/
def DigestItemRef.as_changes_trie_root {H A S : Type} :
    DigestItemRef H A S → Option H
  | .ChangesTrieRoot changes_trie_root => some changes_trie_root
  | _ => none

/-- `DigestItemRef::as_pre_runtime`. -/
def DigestItemRef.as_pre_runtime {H A S : Type} :
    DigestItemRef H A S → Option (ConsensusEngineId × List Nat)
  | .PreRuntime consensus_engine_id data => some (consensus_engine_id, data)
  | _ => none

/-- Owned `as_authorities_change`, delegating through the projection. -/
def DigestItem.as_authorities_change {H A S : Type} (v : DigestItem H A S) :
    Option (List A) :=
  v.dref.as_authorities_change

/-- Owned `as_changes_trie_root`, delegating through the projection. -/
def DigestItem.as_changes_trie_root {H A S : Type} (v : DigestItem H A S) :
    Option H :=
  v.dref.as_changes_trie_root

/-- Owned `as_pre_runtime`, delegating through the projection. -/
def DigestItem.as_pre_runtime {H A S : Type} (v : DigestItem H A S) :
    Option (ConsensusEngineId × List Nat) :=
  v.dref.as_pre_runtime

/-- `Encode for DigestItemRef`: write the tag for the held variant, then the
payload fields in declared order (pairs as tuple encodings, i.e. the
concatenation of both components). -/
def DigestItemRef.encode {H A S : Type} (encH : H → List Nat)
    (encA : A → List Nat) (encS : S → List Nat) :
    DigestItemRef H A S → List Nat
  | .AuthoritiesChange authorities =>
      DigestItemType.encode .AuthoritiesChange ++ encodeVec encA authorities
  | .ChangesTrieRoot changes_trie_root =>
      DigestItemType.encode .ChangesTrieRoot ++ encH changes_trie_root
  | .Consensus val data =>
      DigestItemType.encode .Consensus ++ (encodeEngineId val ++ encodeBytes data)
  | .Seal val sig =>
      DigestItemType.encode .Seal ++ (encodeEngineId val ++ encS sig)
  | .PreRuntime val data =>
      DigestItemType.encode .PreRuntime ++ (encodeEngineId val ++ encodeBytes data)
  | .Other val =>
      DigestItemType.encode .Other ++ encodeBytes val

/-- `Encode for DigestItem`: delegates to the borrowing projection. -/
def DigestItem.encode {H A S : Type} (encH : H → List Nat)
    (encA : A → List Nat) (encS : S → List Nat) (v : DigestItem H A S) :
    List Nat :=
  v.dref.encode encH encA encS

/-- `Decode for DigestItem`: read the tag, dispatch on it, decode the
matching payload shape; every nested failure propagates. -/
def DigestItem.decode {H A S : Type}
    (decH : List Nat → Option (H × List Nat))
    (decA : List Nat → Option (A × List Nat))
    (decS : List Nat → Option (S × List Nat))
    (input : List Nat) : Option (DigestItem H A S × List Nat) :=
  match DigestItemType.decode input with
  | none => none
  | some (item_type, r) =>
    match item_type with
    | .AuthoritiesChange =>
      match decodeVec decA r with
      | none => none
      | some (authorities, r2) => some (.AuthoritiesChange authorities, r2)
    | .ChangesTrieRoot =>
      match decH r with
      | none => none
      | some (root, r2) => some (.ChangesTrieRoot root, r2)
    | .Consensus =>
      match decodeEngineId r with
      | none => none
      | some (val, r2) =>
        match decodeBytes r2 with
        | none => none
        | some (data, r3) => some (.Consensus val data, r3)
    | .Seal =>
      match decodeEngineId r with
      | none => none
      | some (val, r2) =>
        match decS r2 with
        | none => none
        | some (sig, r3) => some (.Seal val sig, r3)
    | .PreRuntime =>
      match decodeEngineId r with
      | none => none
      | some (val, r2) =>
        match decodeBytes r2 with
        | none => none
        | some (data, r3) => some (.PreRuntime val data, r3)
    | .Other =>
      match decodeBytes r with
      | none => none
      | some (val, r2) => some (.Other val, r2)

/-- Generic header digest (`Digest` in the source): an ordered list of logs. -/
structure Digest (Item : Type) where
  logs : List Item
deriving DecidableEq

/-- `Default for Digest`: the empty digest. -/
def Digest.default (Item : Type) : Digest Item := ⟨[]⟩

/-- `Digest::push`: append to the end of `logs`. -/
def Digest.push {Item : Type} (d : Digest Item) (item : Item) : Digest Item :=
  ⟨d.logs ++ [item]⟩

/-- `Digest::pop` (`Vec::pop`): remove and return the last log, `none` when
empty; the digest is returned alongside, updated when a log was removed. -/
def Digest.pop {Item : Type} (d : Digest Item) : Option Item × Digest Item :=
  match d.logs.getLast? with
  | none => (none, d)
  | some x => (some x, ⟨d.logs.dropLast⟩)

/-- Derived `Encode for Digest`: the sequence encoding of `logs`. -/
def Digest.encode {Item : Type} (encItem : Item → List Nat)
    (d : Digest Item) : List Nat :=
  encodeVec encItem d.logs

/-- Derived `Decode for Digest`: decode a sequence of items in order. -/
def Digest.decode {Item : Type}
    (decItem : List Nat → Option (Item × List Nat)) (l : List Nat) :
    Option (Digest Item × List Nat) :=
  match decodeVec decItem l with
  | none => none
  | some (logs, r) => some (⟨logs⟩, r)

/-- Lower-case hex digit for a value below 16. -/
def hexDigit : Nat → Char
  | 0 => '0'
  | 1 => '1'
  | 2 => '2'
  | 3 => '3'
  | 4 => '4'
  | 5 => '5'
  | 6 => '6'
  | 7 => '7'
  | 8 => '8'
  | 9 => '9'
  | 10 => 'a'
  | 11 => 'b'
  | 12 => 'c'
  | 13 => 'd'
  | 14 => 'e'
  | _ => 'f'

/-- Two hex digits of a byte. -/
def byteHex (b : Nat) : List Char := [hexDigit (b / 16 % 16), hexDigit (b % 16)]

/-- Textual interchange form of a byte string: `0x`-prefixed lower-case hex
(`substrate_primitives::bytes::serialize`). -/
def bytesToHexStr (bs : List Nat) : String :=
  "0x" ++ String.mk (bs.map byteHex).flatten

/-- Little-endian 4-byte encoding of a 32-bit integer (the `Hash` and
`AuthorityId` instantiations of the fixture test are 32-bit integers). -/
def encodeU32 (n : Nat) : List Nat :=
  [n % 256, n / 256 % 256, n / 65536 % 256, n / 16777216 % 256]

/-- Little-endian 4-byte decoding of a 32-bit integer. -/
def decodeU32 : List Nat → Option (Nat × List Nat)
  | b0 :: b1 :: b2 :: b3 :: rest =>
      some (b0 + 256 * b1 + 65536 * b2 + 16777216 * b3, rest)
  | _ => none

/-- Raw fixed-width encoding of an `H512` signature: its 64 bytes. -/
def encodeSig512 (s : List Nat) : List Nat := s

/-- The fixture digest of the `should_serialize_digest` test:
`Hash` and `AuthorityId` are 32-bit integers, `SealSignature` is `H512`
(64 bytes, zero-filled by `Default`), the engine id defaults to 4 zero
bytes. -/
def testDigest : Digest (DigestItem Nat Nat (List Nat)) :=
  ⟨[DigestItem.AuthoritiesChange [1],
    DigestItem.ChangesTrieRoot 4,
    DigestItem.Other [1, 2, 3],
    DigestItem.Seal (0, 0, 0, 0) (List.replicate 64 0)]⟩

/-- Serde serialization of one fixture item: the hex form of its binary
encoding. -/
def serializeTestItem (v : DigestItem Nat Nat (List Nat)) : String :=
  bytesToHexStr (DigestItem.encode encodeU32 encodeU32 encodeSig512 v)

/-- Serde serialization of the fixture digest: the ordered list of its
items' hex forms. -/
def serializeTestDigest (d : Digest (DigestItem Nat Nat (List Nat))) :
    List String :=
  d.logs.map serializeTestItem

/-- A minimal concrete codec-compatible payload type used to instantiate
the generic theorems: a single byte with its one-byte encoding. -/
def byteEnc (a : Fin 256) : List Nat := [a.val]

/-- Decoder for the single-byte payload type. -/
def byteDec : List Nat → Option (Fin 256 × List Nat)
  | [] => none
  | b :: r => if h : b < 256 then some (⟨b, h⟩, r) else none

theorem byteEnc_round : RoundLaw byteEnc byteDec := by
  intro a rest
  unfold byteEnc byteDec
  simp only [List.cons_append, List.nil_append]
  rw [dif_pos a.isLt]

theorem byteEnc_trunc : TruncLaw byteEnc byteDec := by
  intro a l l2 he hne
  unfold byteEnc at he
  cases l with
  | nil => rfl
  | cons x l' =>
    simp only [List.cons_append, List.cons.injEq] at he
    exact absurd (List.append_eq_nil.mp he.2.symm).2 hne


theorem encodeVec_ne_nil {α : Type} (enc : α → List Nat) (xs : List α) :
    encodeVec enc xs ≠ [] := by
  unfold encodeVec
  intro h
  exact encodeCompact_ne_nil xs.length (List.append_eq_nil.mp h).1

theorem decode_field_dropLast {α : Type} {enc : α → List Nat}
    {dec : List Nat → Option (α × List Nat)} (htrunc : TruncLaw enc dec)
    (a : α) (ha : enc a ≠ []) : dec (enc a).dropLast = none :=
  htrunc a (enc a).dropLast [(enc a).getLast ha]
    (List.dropLast_append_getLast ha).symm (by simp)

theorem DigestItem.decode_encode {H A S : Type}
    {encH : H → List Nat} {decH : List Nat → Option (H × List Nat)}
    {encA : A → List Nat} {decA : List Nat → Option (A × List Nat)}
    {encS : S → List Nat} {decS : List Nat → Option (S × List Nat)}
    (hH : RoundLaw encH decH) (hA : RoundLaw encA decA)
    (hS : RoundLaw encS decS) (v : DigestItem H A S) (rest : List Nat) :
    DigestItem.decode decH decA decS
      (DigestItem.encode encH encA encS v ++ rest) = some (v, rest) := by
  have hHr : ∀ a r, decH (encH a ++ r) = some (a, r) := hH
  have hSr : ∀ a r, decS (encS a ++ r) = some (a, r) := hS
  have hVec : ∀ (xs : List A) r,
      decodeVec decA (encodeVec encA xs ++ r) = some (xs, r) := decodeVec_round hA
  have hEng : ∀ (e : ConsensusEngineId) r,
      decodeEngineId (encodeEngineId e ++ r) = some (e, r) := decodeEngineId_round
  have hBytes : ∀ (bs : List Nat) r,
      decodeBytes (encodeBytes bs ++ r) = some (bs, r) := decodeBytes_round
  have htag0 : ∀ r : List Nat,
      DigestItemType.decode (0 :: r) = some (.Other, r) := fun _ => rfl
  have htag1 : ∀ r : List Nat,
      DigestItemType.decode (1 :: r) = some (.AuthoritiesChange, r) := fun _ => rfl
  have htag2 : ∀ r : List Nat,
      DigestItemType.decode (2 :: r) = some (.ChangesTrieRoot, r) := fun _ => rfl
  have htag4 : ∀ r : List Nat,
      DigestItemType.decode (4 :: r) = some (.Consensus, r) := fun _ => rfl
  have htag5 : ∀ r : List Nat,
      DigestItemType.decode (5 :: r) = some (.Seal, r) := fun _ => rfl
  have htag6 : ∀ r : List Nat,
      DigestItemType.decode (6 :: r) = some (.PreRuntime, r) := fun _ => rfl
  cases v with
  | AuthoritiesChange xs =>
    have henc : DigestItem.encode encH encA encS (.AuthoritiesChange xs) =
        1 :: encodeVec encA xs := rfl
    rw [henc, List.cons_append]
    simp only [DigestItem.decode, htag1, hVec]
  | ChangesTrieRoot h =>
    have henc : DigestItem.encode encH encA encS (.ChangesTrieRoot h) =
        2 :: encH h := rfl
    rw [henc, List.cons_append]
    simp only [DigestItem.decode, htag2, hHr]
  | Consensus e bs =>
    have henc : DigestItem.encode encH encA encS (.Consensus e bs) =
        4 :: (encodeEngineId e ++ encodeBytes bs) := rfl
    rw [henc, List.cons_append, List.append_assoc]
    simp only [DigestItem.decode, htag4, hEng, hBytes]
  | Seal e s =>
    have henc : DigestItem.encode encH encA encS (.Seal e s) =
        5 :: (encodeEngineId e ++ encS s) := rfl
    rw [henc, List.cons_append, List.append_assoc]
    simp only [DigestItem.decode, htag5, hEng, hSr]
  | PreRuntime e bs =>
    have henc : DigestItem.encode encH encA encS (.PreRuntime e bs) =
        6 :: (encodeEngineId e ++ encodeBytes bs) := rfl
    rw [henc, List.cons_append, List.append_assoc]
    simp only [DigestItem.decode, htag6, hEng, hBytes]
  | Other bs =>
    have henc : DigestItem.encode encH encA encS (.Other bs) =
        0 :: encodeBytes bs := rfl
    rw [henc, List.cons_append]
    simp only [DigestItem.decode, htag0, hBytes]

theorem DigestItem.decode_dropLast {H A S : Type}
    {encH : H → List Nat} {decH : List Nat → Option (H × List Nat)}
    {encA : A → List Nat} {decA : List Nat → Option (A × List Nat)}
    {encS : S → List Nat} {decS : List Nat → Option (S × List Nat)}
    (hH : RoundLaw encH decH) (hHt : TruncLaw encH decH)
    (hA : RoundLaw encA decA) (hAt : TruncLaw encA decA)
    (hS : RoundLaw encS decS) (hSt : TruncLaw encS decS)
    (v : DigestItem H A S) :
    DigestItem.decode decH decA decS
      (DigestItem.encode encH encA encS v).dropLast = none := by
  have hEng : ∀ (e : ConsensusEngineId) r,
      decodeEngineId (encodeEngineId e ++ r) = some (e, r) := decodeEngineId_round
  have htag0 : ∀ r : List Nat,
      DigestItemType.decode (0 :: r) = some (.Other, r) := fun _ => rfl
  have htag1 : ∀ r : List Nat,
      DigestItemType.decode (1 :: r) = some (.AuthoritiesChange, r) := fun _ => rfl
  have htag2 : ∀ r : List Nat,
      DigestItemType.decode (2 :: r) = some (.ChangesTrieRoot, r) := fun _ => rfl
  have htag4 : ∀ r : List Nat,
      DigestItemType.decode (4 :: r) = some (.Consensus, r) := fun _ => rfl
  have htag5 : ∀ r : List Nat,
      DigestItemType.decode (5 :: r) = some (.Seal, r) := fun _ => rfl
  have htag6 : ∀ r : List Nat,
      DigestItemType.decode (6 :: r) = some (.PreRuntime, r) := fun _ => rfl
  cases v with
  | AuthoritiesChange xs =>
    have henc : DigestItem.encode encH encA encS (.AuthoritiesChange xs) =
        [1] ++ encodeVec encA xs := rfl
    rw [henc, dropLast_append_ne _ _ (encodeVec_ne_nil encA xs),
      List.singleton_append]
    simp only [DigestItem.decode, htag1, decodeVec_dropLast hA hAt xs]
  | ChangesTrieRoot h =>
    by_cases hnil : encH h = []
    · have henc : DigestItem.encode encH encA encS (.ChangesTrieRoot h) =
          [2] ++ encH h := rfl
      rw [henc, hnil, List.append_nil]
      rfl
    · have henc : DigestItem.encode encH encA encS (.ChangesTrieRoot h) =
          [2] ++ encH h := rfl
      rw [henc, dropLast_append_ne _ _ hnil, List.singleton_append]
      simp only [DigestItem.decode, htag2, decode_field_dropLast hHt h hnil]
  | Consensus e bs =>
    have henc : DigestItem.encode encH encA encS (.Consensus e bs) =
        [4] ++ (encodeEngineId e ++ encodeBytes bs) := rfl
    have hne : encodeEngineId e ++ encodeBytes bs ≠ [] := by
      intro hc
      exact encodeBytes_ne_nil bs (List.append_eq_nil.mp hc).2
    rw [henc, dropLast_append_ne _ _ hne,
      dropLast_append_ne _ _ (encodeBytes_ne_nil bs), List.singleton_append]
    simp only [DigestItem.decode, htag4, hEng, decodeBytes_dropLast bs]
  | Seal e s =>
    by_cases hnil : encS s = []
    · have henc : DigestItem.encode encH encA encS (.Seal e s) =
          [5] ++ (encodeEngineId e ++ encS s) := rfl
      rw [henc, hnil, List.append_nil]
      have hdrop : ([5] ++ encodeEngineId e).dropLast =
          5 :: [e.1, e.2.1, e.2.2.1] := by
        rw [dropLast_append_ne _ _ (by simp [encodeEngineId]), List.singleton_append]
        rfl
      rw [hdrop]
      simp only [DigestItem.decode, htag5]
      rfl
    · have henc : DigestItem.encode encH encA encS (.Seal e s) =
          [5] ++ (encodeEngineId e ++ encS s) := rfl
      have hne : encodeEngineId e ++ encS s ≠ [] := by
        intro hc
        exact hnil (List.append_eq_nil.mp hc).2
      rw [henc, dropLast_append_ne _ _ hne, dropLast_append_ne _ _ hnil,
        List.singleton_append]
      simp only [DigestItem.decode, htag5, hEng, decode_field_dropLast hSt s hnil]
  | PreRuntime e bs =>
    have henc : DigestItem.encode encH encA encS (.PreRuntime e bs) =
        [6] ++ (encodeEngineId e ++ encodeBytes bs) := rfl
    have hne : encodeEngineId e ++ encodeBytes bs ≠ [] := by
      intro hc
      exact encodeBytes_ne_nil bs (List.append_eq_nil.mp hc).2
    rw [henc, dropLast_append_ne _ _ hne,
      dropLast_append_ne _ _ (encodeBytes_ne_nil bs), List.singleton_append]
    simp only [DigestItem.decode, htag6, hEng, decodeBytes_dropLast bs]
  | Other bs =>
    have henc : DigestItem.encode encH encA encS (.Other bs) =
        [0] ++ encodeBytes bs := rfl
    rw [henc, dropLast_append_ne _ _ (encodeBytes_ne_nil bs),
      List.singleton_append]
    simp only [DigestItem.decode, htag0, decodeBytes_dropLast bs]

theorem decodeN_fail_tail {α : Type} {enc : α → List Nat}
    {dec : List Nat → Option (α × List Nat)} (hround : RoundLaw enc dec)
    (vs : List α) (m : Nat) (tail : List Nat)
    (htail : decodeN dec m tail = none) :
    decodeN dec (vs.length + m) ((vs.map enc).flatten ++ tail) = none := by
  have hr : ∀ a r, dec (enc a ++ r) = some (a, r) := hround
  induction vs with
  | nil => simpa using htail
  | cons x vs ih =>
    have hlen : (x :: vs).length + m = (vs.length + m) + 1 := by
      simp only [List.length_cons]
      omega
    rw [hlen]
    simp only [List.map_cons, List.flatten_cons, List.append_assoc, decodeN,
      hr, ih]

/-- Tag of the variant held by an owned digest item. -/
def DigestItem.itemTypeOf {H A S : Type} : DigestItem H A S → DigestItemType
  | .AuthoritiesChange _ => .AuthoritiesChange
  | .ChangesTrieRoot _ => .ChangesTrieRoot
  | .Consensus _ _ => .Consensus
  | .Seal _ _ => .Seal
  | .PreRuntime _ _ => .PreRuntime
  | .Other _ => .Other

/-- Claim C1: for every constructible digest item `v` (any of the six
variants, over arbitrary codec-compatible `Hash`, `AuthorityId`,
`SealSignature` payloads), decoding the bytes produced by encoding `v`
yields `some v` with the whole input consumed. -/
theorem digest_item_roundtrip {H A S : Type}
    {encH : H → List Nat} {decH : List Nat → Option (H × List Nat)}
    {encA : A → List Nat} {decA : List Nat → Option (A × List Nat)}
    {encS : S → List Nat} {decS : List Nat → Option (S × List Nat)}
    (hH : RoundLaw encH decH) (hA : RoundLaw encA decA)
    (hS : RoundLaw encS decS) (v : DigestItem H A S) :
    DigestItem.decode decH decA decS
      (DigestItem.encode encH encA encS v) = some (v, []) := by
  have h := DigestItem.decode_encode hH hA hS v []
  rwa [List.append_nil] at h

/-- Witness for C1 at a concrete Seal item over single-byte payloads. -/
theorem digest_item_roundtrip_witness :
    DigestItem.decode byteDec byteDec byteDec
      (DigestItem.encode byteEnc byteEnc byteEnc
        (DigestItem.Seal (0, 0, 0, 0) (7 : Fin 256) :
          DigestItem (Fin 256) (Fin 256) (Fin 256))) =
      some (DigestItem.Seal (0, 0, 0, 0) 7, []) :=
  digest_item_roundtrip byteEnc_round byteEnc_round byteEnc_round _

/-- Claim C2 (counterexample): the encoding of `Other [1,2,3]` does not
begin with the 4-byte little-endian integer form of its tag value 0 —
the wire tag is a single byte, not four. -/
theorem digest_item_tag_four_byte_cex :
    ¬ ∃ rest, DigestItem.encode encodeU32 encodeU32 encodeSig512
        (DigestItem.Other [1, 2, 3] : DigestItem Nat Nat (List Nat)) =
      encodeU32 0 ++ rest := by
  rintro ⟨rest, h⟩
  have h2 : ([0, 12, 1, 2, 3] : List Nat) = 0 :: 0 :: 0 :: 0 :: rest := h
  simp at h2

/-- Claim C2 (amended): `encode v` always begins with the exact one-byte
tag of `v`'s variant, per the table 0 = Other, 1 = AuthoritiesChange,
2 = ChangesTrieRoot, 4 = Consensus, 5 = Seal, 6 = PreRuntime. -/
theorem digest_item_tag_first_byte {H A S : Type}
    (encH : H → List Nat) (encA : A → List Nat) (encS : S → List Nat)
    (v : DigestItem H A S) :
    DigestItemType.toByte .Other = 0 ∧
    DigestItemType.toByte .AuthoritiesChange = 1 ∧
    DigestItemType.toByte .ChangesTrieRoot = 2 ∧
    DigestItemType.toByte .Consensus = 4 ∧
    DigestItemType.toByte .Seal = 5 ∧
    DigestItemType.toByte .PreRuntime = 6 ∧
    ∃ payload, DigestItem.encode encH encA encS v =
      v.itemTypeOf.toByte :: payload := by
  refine ⟨rfl, rfl, rfl, rfl, rfl, rfl, ?_⟩
  cases v with
  | AuthoritiesChange xs => exact ⟨_, rfl⟩
  | ChangesTrieRoot h => exact ⟨_, rfl⟩
  | Consensus e bs => exact ⟨_, rfl⟩
  | Seal e s => exact ⟨_, rfl⟩
  | PreRuntime e bs => exact ⟨_, rfl⟩
  | Other bs => exact ⟨_, rfl⟩

/-- Claim C3: the fixture digest of `should_serialize_digest` serializes in
the textual hex interchange form to exactly the expected list of
`0x`-prefixed hex strings. -/
theorem digest_fixture_hex :
    serializeTestDigest testDigest =
      ["0x010401000000", "0x0204000000", "0x000c010203",
       "0x050000000000000000000000000000000000000000000000000000000000000000000000000000000000000000000000000000000000000000000000000000000000000000"] := by
  decide

/-- Claim C4: decoding any input whose leading tag byte is 3, or any value
outside the known set 0, 1, 2, 4, 5, 6, fails regardless of the bytes that
follow. -/
theorem digest_item_unknown_tag_fails {H A S : Type}
    (decH : List Nat → Option (H × List Nat))
    (decA : List Nat → Option (A × List Nat))
    (decS : List Nat → Option (S × List Nat))
    (b : Nat) (rest : List Nat)
    (hb : ¬(b = 0 ∨ b = 1 ∨ b = 2 ∨ b = 4 ∨ b = 5 ∨ b = 6)) :
    DigestItem.decode decH decA decS (b :: rest) = none := by
  push_neg at hb
  obtain ⟨h0, h1, h2, h4, h5, h6⟩ := hb
  have htag : DigestItemType.decode (b :: rest) = none := by
    show (if b = 0 then some (DigestItemType.Other, rest)
      else if b = 1 then some (DigestItemType.AuthoritiesChange, rest)
      else if b = 2 then some (DigestItemType.ChangesTrieRoot, rest)
      else if b = 4 then some (DigestItemType.Consensus, rest)
      else if b = 5 then some (DigestItemType.Seal, rest)
      else if b = 6 then some (DigestItemType.PreRuntime, rest)
      else none) = none
    rw [if_neg h0, if_neg h1, if_neg h2, if_neg h4, if_neg h5, if_neg h6]
  simp only [DigestItem.decode, htag]

/-- Witness for C4 at tag byte 3 with arbitrary trailing bytes. -/
theorem digest_item_unknown_tag_fails_witness :
    ¬((3 : Nat) = 0 ∨ (3 : Nat) = 1 ∨ (3 : Nat) = 2 ∨ (3 : Nat) = 4 ∨
        (3 : Nat) = 5 ∨ (3 : Nat) = 6) ∧
    DigestItem.decode byteDec byteDec byteDec (3 :: [9, 9]) =
      (none : Option (DigestItem (Fin 256) (Fin 256) (Fin 256) × List Nat)) :=
  ⟨by decide,
   digest_item_unknown_tag_fails byteDec byteDec byteDec 3 [9, 9] (by decide)⟩

/-- Claim C5: decoding the encoding of any constructible digest item with
its final byte removed fails; nested field-decode failures propagate. -/
theorem digest_item_truncated_fails {H A S : Type}
    {encH : H → List Nat} {decH : List Nat → Option (H × List Nat)}
    {encA : A → List Nat} {decA : List Nat → Option (A × List Nat)}
    {encS : S → List Nat} {decS : List Nat → Option (S × List Nat)}
    (hH : RoundLaw encH decH) (hHt : TruncLaw encH decH)
    (hA : RoundLaw encA decA) (hAt : TruncLaw encA decA)
    (hS : RoundLaw encS decS) (hSt : TruncLaw encS decS)
    (v : DigestItem H A S) :
    DigestItem.decode decH decA decS
      (DigestItem.encode encH encA encS v).dropLast = none :=
  DigestItem.decode_dropLast hH hHt hA hAt hS hSt v

/-- Witness for C5 at a concrete AuthoritiesChange item. -/
theorem digest_item_truncated_fails_witness :
    DigestItem.decode byteDec byteDec byteDec
      (DigestItem.encode byteEnc byteEnc byteEnc
        (DigestItem.AuthoritiesChange [(2 : Fin 256), 3] :
          DigestItem (Fin 256) (Fin 256) (Fin 256))).dropLast = none :=
  digest_item_truncated_fails byteEnc_round byteEnc_trunc byteEnc_round
    byteEnc_trunc byteEnc_round byteEnc_trunc _

/-- Claim C6: item decoding consumes exactly one encoded item — decoding
`encode v ++ rest` yields `some v` with the cursor left exactly at the
start of `rest`. -/
theorem digest_item_decode_exact {H A S : Type}
    {encH : H → List Nat} {decH : List Nat → Option (H × List Nat)}
    {encA : A → List Nat} {decA : List Nat → Option (A × List Nat)}
    {encS : S → List Nat} {decS : List Nat → Option (S × List Nat)}
    (hH : RoundLaw encH decH) (hA : RoundLaw encA decA)
    (hS : RoundLaw encS decS) (v : DigestItem H A S) (rest : List Nat) :
    DigestItem.decode decH decA decS
      (DigestItem.encode encH encA encS v ++ rest) = some (v, rest) :=
  DigestItem.decode_encode hH hA hS v rest

/-- Witness for C6 at a concrete PreRuntime item with trailing bytes. -/
theorem digest_item_decode_exact_witness :
    DigestItem.decode byteDec byteDec byteDec
      (DigestItem.encode byteEnc byteEnc byteEnc
        (DigestItem.PreRuntime (9, 8, 7, 6) [5] :
          DigestItem (Fin 256) (Fin 256) (Fin 256)) ++ [42, 43]) =
      some (DigestItem.PreRuntime (9, 8, 7, 6) [5], [42, 43]) :=
  digest_item_decode_exact byteEnc_round byteEnc_round byteEnc_round _ _

/-- Claim C7: accessors are exclusive to their variant — `ChangesTrieRoot h`
answers only `as_changes_trie_root` (with `h`), and in general each
accessor is present exactly when the held variant is the one it targets,
yielding that variant's payload. -/
theorem digest_item_accessor_exclusive {H A S : Type} :
    (∀ h : H,
      (DigestItem.ChangesTrieRoot h : DigestItem H A S).as_changes_trie_root = some h ∧
      (DigestItem.ChangesTrieRoot h : DigestItem H A S).as_other = none ∧
      (DigestItem.ChangesTrieRoot h : DigestItem H A S).as_authorities_change = none ∧
      (DigestItem.ChangesTrieRoot h : DigestItem H A S).as_pre_runtime = none) ∧
    (∀ (v : DigestItem H A S) (bs : List Nat),
      v.as_other = some bs ↔ v = DigestItem.Other bs) ∧
    (∀ (v : DigestItem H A S) (xs : List A),
      v.as_authorities_change = some xs ↔ v = DigestItem.AuthoritiesChange xs) ∧
    (∀ (v : DigestItem H A S) (h : H),
      v.as_changes_trie_root = some h ↔ v = DigestItem.ChangesTrieRoot h) ∧
    (∀ (v : DigestItem H A S) (e : ConsensusEngineId) (bs : List Nat),
      v.as_pre_runtime = some (e, bs) ↔ v = DigestItem.PreRuntime e bs) := by
  refine ⟨fun h => ⟨rfl, rfl, rfl, rfl⟩, ?_, ?_, ?_, ?_⟩
  · intro v bs
    cases v <;> simp [DigestItem.as_other]
  · intro v xs
    cases v <;>
      simp [DigestItem.as_authorities_change, DigestItem.dref,
        DigestItemRef.as_authorities_change]
  · intro v h
    cases v <;>
      simp [DigestItem.as_changes_trie_root, DigestItem.dref,
        DigestItemRef.as_changes_trie_root]
  · intro v e bs
    cases v <;>
      simp [DigestItem.as_pre_runtime, DigestItem.dref,
        DigestItemRef.as_pre_runtime]

/-- Claim C8: the digest container preserves insertion order and pops in
LIFO order; popping an empty digest yields `none`, not an error. -/
theorem digest_container_order_lifo {Item : Type} (a b c : Item) :
    ((((Digest.default Item).push a).push b).push c).logs = [a, b, c] ∧
    ((((Digest.default Item).push a).push b).push c).pop =
      (some c, Digest.mk [a, b]) ∧
    (Digest.mk [a, b]).pop = (some b, Digest.mk [a]) ∧
    (Digest.mk [a]).pop = (some a, Digest.mk []) ∧
    (Digest.default Item).pop = (none, Digest.default Item) :=
  ⟨rfl, rfl, rfl, rfl, rfl⟩

/-- Claim C9: the owned item's `encode` and accessors agree with those of
its borrowing projection, and `dref` maps each variant to the same variant
over the same fields. -/
theorem digest_item_delegates_to_ref {H A S : Type}
    (encH : H → List Nat) (encA : A → List Nat) (encS : S → List Nat)
    (v : DigestItem H A S) :
    DigestItem.encode encH encA encS v =
      DigestItemRef.encode encH encA encS v.dref ∧
    v.as_authorities_change = v.dref.as_authorities_change ∧
    v.as_changes_trie_root = v.dref.as_changes_trie_root ∧
    v.as_pre_runtime = v.dref.as_pre_runtime ∧
    (∀ xs : List A, (DigestItem.AuthoritiesChange xs : DigestItem H A S).dref =
      DigestItemRef.AuthoritiesChange xs) ∧
    (∀ h : H, (DigestItem.ChangesTrieRoot h : DigestItem H A S).dref =
      DigestItemRef.ChangesTrieRoot h) ∧
    (∀ (e : ConsensusEngineId) (bs : List Nat),
      (DigestItem.Consensus e bs : DigestItem H A S).dref =
        DigestItemRef.Consensus e bs) ∧
    (∀ (e : ConsensusEngineId) (s : S),
      (DigestItem.Seal e s : DigestItem H A S).dref = DigestItemRef.Seal e s) ∧
    (∀ (e : ConsensusEngineId) (bs : List Nat),
      (DigestItem.PreRuntime e bs : DigestItem H A S).dref =
        DigestItemRef.PreRuntime e bs) ∧
    (∀ bs : List Nat, (DigestItem.Other bs : DigestItem H A S).dref =
      DigestItemRef.Other bs) :=
  ⟨rfl, rfl, rfl, rfl, fun _ => rfl, fun _ => rfl, fun _ _ => rfl,
    fun _ _ => rfl, fun _ _ => rfl, fun _ => rfl⟩

/-- Claim C10: digest decoding is atomic — when more items are expected and
the remaining input fails to decode as an item, the whole digest decode
returns `none`; no partially decoded digest is produced. -/
theorem digest_decode_atomic {H A S : Type}
    {encH : H → List Nat} {decH : List Nat → Option (H × List Nat)}
    {encA : A → List Nat} {decA : List Nat → Option (A × List Nat)}
    {encS : S → List Nat} {decS : List Nat → Option (S × List Nat)}
    (hH : RoundLaw encH decH) (hA : RoundLaw encA decA)
    (hS : RoundLaw encS decS) (vs : List (DigestItem H A S)) (m : Nat)
    (hm : 1 ≤ m) (bad : List Nat)
    (hbad : DigestItem.decode decH decA decS bad = none) :
    Digest.decode (DigestItem.decode decH decA decS)
      (encodeCompact (vs.length + m) ++
        ((vs.map (DigestItem.encode encH encA encS)).flatten ++ bad)) =
      none := by
  have hround : RoundLaw (DigestItem.encode encH encA encS)
      (DigestItem.decode decH decA decS) :=
    fun v r => DigestItem.decode_encode hH hA hS v r
  have htail : decodeN (DigestItem.decode decH decA decS) m bad = none := by
    obtain ⟨k, rfl⟩ : ∃ k, m = k + 1 := ⟨m - 1, by omega⟩
    simp only [decodeN, hbad]
  have hN := decodeN_fail_tail hround vs m bad htail
  unfold Digest.decode decodeVec
  rw [decodeCompact_round]
  simp only [hN]

/-- Witness for C10: one well-formed `Other` item, a declared length of 2,
and a tail starting with the reserved tag 3. -/
theorem digest_decode_atomic_witness :
    Digest.decode (DigestItem.decode byteDec byteDec byteDec)
      (encodeCompact
          ([(DigestItem.Other [7] : DigestItem (Fin 256) (Fin 256) (Fin 256))].length + 1) ++
        (([(DigestItem.Other [7] : DigestItem (Fin 256) (Fin 256) (Fin 256))].map
            (DigestItem.encode byteEnc byteEnc byteEnc)).flatten ++ [3])) =
      none :=
  digest_decode_atomic byteEnc_round byteEnc_round byteEnc_round
    [DigestItem.Other [7]] 1 (by decide) [3] rfl
